import Mathlib

/-!
Shallow embedding of `coresimd/src/x86/i586/sse41.rs` (SSE4.1 bindings).

Vector registers are modelled at the bit level: a register with `n` lanes of
width `w` is a function from lane index to the lane's raw bit pattern, wrapped
in a structure; lane reads mask by `2 ^ w`, mirroring the fact that a real
register lane holds exactly `w` bits.  Machine integers are embedded as
`Nat`/`Int` with explicit `% 2 ^ w`; in particular, for a mask `2 ^ k - 1`, the
two's-complement bitwise AND `x & (2 ^ k - 1)` of the Rust source is embedded as
`x % 2 ^ k` (mathematically equal on two's-complement integers), since Lean's
kernel cannot reduce `Nat.bitwise`-based operations.

The file is split into: register model, rounding-directive constants, the
bindings that are fully defined inside `sse41.rs`, spec-modelled definitions
for the parts of the repository that are outside `src/` (the `constify_imm*`
dispatch macros of `macros.rs` and the hardware primitives declared `extern`),
and then one theorem per claim.
-/

set_option maxRecDepth 16000

namespace SSE41

/-- A 128-bit vector register viewed as `n` lanes of `w` bits: the lane view
stores each lane's raw bit pattern. -/
structure Vec (n w : Nat) where
  lanes : Fin n → Nat

/-- Read lane `i`: a lane holds exactly `w` bits, so the read masks by `2 ^ w`. -/
def Vec.get {n w : Nat} (a : Vec n w) (i : Fin n) : Nat := a.lanes i % 2 ^ w

/-- Build a register from a list of lane bit patterns (lane 0 first). -/
def Vec.ofList (n w : Nat) (l : List Nat) : Vec n w := ⟨fun i => l.getD i 0⟩

/-- Build a register from a list of signed lane values (lane 0 first),
storing each value's `w`-bit two's-complement pattern. -/
def Vec.ofInts (n w : Nat) (l : List Int) : Vec n w :=
  ⟨fun i => ((l.getD i 0) % (2 ^ w : Nat)).toNat⟩

abbrev i8x16 := Vec 16 8
abbrev u8x16 := Vec 16 8
abbrev i16x8 := Vec 8 16
abbrev u16x8 := Vec 8 16
abbrev i32x4 := Vec 4 32
abbrev u32x4 := Vec 4 32
abbrev i64x2 := Vec 2 64
abbrev f32x4 := Vec 4 32
abbrev f64x2 := Vec 2 64

/-- Signed (two's-complement) value of a `w`-bit pattern. -/
def toSigned (w x : Nat) : Int :=
  if x % 2 ^ w < 2 ^ (w - 1) then ((x % 2 ^ w : Nat) : Int)
  else ((x % 2 ^ w : Nat) : Int) - 2 ^ w

lemma Vec.get_lt {n w : Nat} (a : Vec n w) (i : Fin n) : a.get i < 2 ^ w :=
  Nat.mod_lt _ (Nat.pos_pow_of_pos w (by omega))

/- ### Rounding-directive constants (sse41.rs lines 11-42) -/

/-- round to nearest -/
def _MM_FROUND_TO_NEAREST_INT : Int := 0x00
/-- round down -/
def _MM_FROUND_TO_NEG_INF : Int := 0x01
/-- round up -/
def _MM_FROUND_TO_POS_INF : Int := 0x02
/-- truncate -/
def _MM_FROUND_TO_ZERO : Int := 0x03
/-- use MXCSR.RC (the ambient rounding mode) -/
def _MM_FROUND_CUR_DIRECTION : Int := 0x04
/-- do not suppress exceptions -/
def _MM_FROUND_RAISE_EXC : Int := 0x00
/-- suppress exceptions -/
def _MM_FROUND_NO_EXC : Int := 0x08
/-- round to nearest and do not suppress exceptions; the source combines the
two fields with a bitwise or, embedded as `+` because the target bits (low 2)
and the policy bit (bit 3) are disjoint -/
def _MM_FROUND_NINT : Int := 0x00
/-- round down and do not suppress exceptions -/
def _MM_FROUND_FLOOR : Int := _MM_FROUND_RAISE_EXC + _MM_FROUND_TO_NEG_INF
/-- round up and do not suppress exceptions -/
def _MM_FROUND_CEIL : Int := _MM_FROUND_RAISE_EXC + _MM_FROUND_TO_POS_INF
/-- truncate and do not suppress exceptions -/
def _MM_FROUND_TRUNC : Int := _MM_FROUND_RAISE_EXC + _MM_FROUND_TO_ZERO
/-- use MXCSR.RC and do not suppress exceptions -/
def _MM_FROUND_RINT : Int := _MM_FROUND_RAISE_EXC + _MM_FROUND_CUR_DIRECTION
/-- use MXCSR.RC and suppress exceptions -/
def _MM_FROUND_NEARBYINT : Int := _MM_FROUND_NO_EXC + _MM_FROUND_CUR_DIRECTION

/-- The public rounding-directive constant surface of `sse41.rs`: every
`pub const` of lines 11-42, with its name and numeric value. -/
def froundConstants : List (String × Int) := [
  ("_MM_FROUND_TO_NEAREST_INT", _MM_FROUND_TO_NEAREST_INT),
  ("_MM_FROUND_TO_NEG_INF", _MM_FROUND_TO_NEG_INF),
  ("_MM_FROUND_TO_POS_INF", _MM_FROUND_TO_POS_INF),
  ("_MM_FROUND_TO_ZERO", _MM_FROUND_TO_ZERO),
  ("_MM_FROUND_CUR_DIRECTION", _MM_FROUND_CUR_DIRECTION),
  ("_MM_FROUND_RAISE_EXC", _MM_FROUND_RAISE_EXC),
  ("_MM_FROUND_NO_EXC", _MM_FROUND_NO_EXC),
  ("_MM_FROUND_NINT", _MM_FROUND_NINT),
  ("_MM_FROUND_FLOOR", _MM_FROUND_FLOOR),
  ("_MM_FROUND_CEIL", _MM_FROUND_CEIL),
  ("_MM_FROUND_TRUNC", _MM_FROUND_TRUNC),
  ("_MM_FROUND_RINT", _MM_FROUND_RINT),
  ("_MM_FROUND_NEARBYINT", _MM_FROUND_NEARBYINT)]

/- ### Bindings defined directly in sse41.rs -/

/-- Extract a single-precision float lane from `a`, selected by `imm8`;
the source computes `mem::transmute(a.extract(imm8 as u32 & 0b11))`, a bit
reinterpretation of the lane into a signed 32-bit integer, with the index
masked to the low two bits (`% 4`). -/
def _mm_extract_ps (a : f32x4) (imm8 : Nat) : Int :=
  toSigned 32 (a.get ⟨imm8 % 4, by omega⟩)

/-- Extract an 8-bit lane from `a`, selected by `imm8`; the source computes
`(a.extract_unchecked(imm8 & 15) as i32) & 0xFF`: the index AND 15 is embedded
as `% 16` on the `i32` index, the sign extension `as i32` is `toSigned 8`, and
the final AND 0xFF is `% 256`. -/
def _mm_extract_epi8 (a : i8x16) (imm8 : Int) : Int :=
  (toSigned 8 (a.get ⟨(imm8 % 16).toNat, by omega⟩)) % 256

/- ### Claim C3 -/

/-- Claim C3 counterexample: the constant surface has no "-and-suppress"
composite for the toward-negative-infinity target: no public constant carries
the value `_MM_FROUND_TO_NEG_INF` OR `_MM_FROUND_NO_EXC` (= 0x09). -/
theorem fround_no_suppress_composite :
    froundConstants.any
      (fun p => p.2 == _MM_FROUND_TO_NEG_INF + _MM_FROUND_NO_EXC) = false := by
  decide

/-- Claim C3 (amended): the rounding-directive constant surface fixes the 13
documented encodings; it contains, for each of the four explicit rounding
targets, a "-and-raise" composite equal to the target OR the raise policy
(0x00), plus the two ambient-mode composites (0x04 OR raise = 0x04 and
0x04 OR suppress = 0x0C); but it contains no "-and-suppress" composite for the
explicit targets: no constant has value 0x09, 0x0A or 0x0B, and the only
constant with the nearest+suppress value 0x08 is the bare suppress-exceptions
policy `_MM_FROUND_NO_EXC`. -/
theorem fround_surface_spec :
    froundConstants.map Prod.snd = [0, 1, 2, 3, 4, 0, 8, 0, 1, 2, 3, 4, 12]
    ∧ (∃ p ∈ froundConstants,
        p.2 = _MM_FROUND_TO_NEAREST_INT + _MM_FROUND_RAISE_EXC)
    ∧ (∃ p ∈ froundConstants,
        p.2 = _MM_FROUND_TO_NEG_INF + _MM_FROUND_RAISE_EXC)
    ∧ (∃ p ∈ froundConstants,
        p.2 = _MM_FROUND_TO_POS_INF + _MM_FROUND_RAISE_EXC)
    ∧ (∃ p ∈ froundConstants,
        p.2 = _MM_FROUND_TO_ZERO + _MM_FROUND_RAISE_EXC)
    ∧ (∃ p ∈ froundConstants,
        p.2 = _MM_FROUND_CUR_DIRECTION + _MM_FROUND_RAISE_EXC)
    ∧ (∃ p ∈ froundConstants,
        p.2 = _MM_FROUND_CUR_DIRECTION + _MM_FROUND_NO_EXC)
    ∧ froundConstants.any
        (fun p => p.2 == _MM_FROUND_TO_NEG_INF + _MM_FROUND_NO_EXC) = false
    ∧ froundConstants.any
        (fun p => p.2 == _MM_FROUND_TO_POS_INF + _MM_FROUND_NO_EXC) = false
    ∧ froundConstants.any
        (fun p => p.2 == _MM_FROUND_TO_ZERO + _MM_FROUND_NO_EXC) = false
    ∧ (froundConstants.filter
        (fun p => p.2 == _MM_FROUND_TO_NEAREST_INT + _MM_FROUND_NO_EXC)).map
          Prod.fst = ["_MM_FROUND_NO_EXC"] := by
  refine ⟨by decide, by decide, by decide, by decide, by decide, by decide,
    by decide, by decide, by decide, by decide, by decide⟩

/- ### Claim C8 -/

/-- Claim C8: `_mm_extract_ps` is total and returns the signed 32-bit integer
whose bit pattern is exactly the bit pattern of lane `imm8 % 4` of `a` (a bit
reinterpretation, recovered here by taking the result's 32-bit pattern), with
the index taken modulo the lane count rather than range-checked. -/
theorem extract_ps_bit_reinterpretation (a : f32x4) (imm8 : Nat) :
    ((_mm_extract_ps a imm8) % 4294967296).toNat = a.get ⟨imm8 % 4, by omega⟩
    ∧ _mm_extract_ps a imm8 = _mm_extract_ps a (imm8 % 4) := by
  constructor
  · have h := Vec.get_lt a ⟨imm8 % 4, by omega⟩
    simp only [_mm_extract_ps, toSigned] at *
    norm_num at *
    split_ifs <;> omega
  · have h4 : imm8 % 4 % 4 = imm8 % 4 := Nat.mod_mod_of_dvd imm8 dvd_rfl
    simp only [_mm_extract_ps, h4]

/- ### Claim C10 -/

/-- Claim C10: `_mm_extract_epi8` returns the zero-extended unsigned value of
lane `imm8 AND 15`: the result is the raw byte pattern of that lane, hence
always in `[0, 255]`; in particular on the test vector with lane 0 holding
`-1` the extraction at index 0 returns 255 (never a negative value), and
index 19 is masked to lane 3. -/
theorem extract_epi8_zero_extends (a : i8x16) (imm8 : Int) :
    0 ≤ _mm_extract_epi8 a imm8
    ∧ _mm_extract_epi8 a imm8 ≤ 255
    ∧ _mm_extract_epi8 a imm8 = a.get ⟨(imm8 % 16).toNat, by omega⟩
    ∧ _mm_extract_epi8
        (Vec.ofInts 16 8 [-1, 1, 2, 3, 4, 5, 6, 7, 8, 9, 10, 11, 12, 13, 14, 15])
        0 = 255
    ∧ _mm_extract_epi8
        (Vec.ofInts 16 8 [-1, 1, 2, 3, 4, 5, 6, 7, 8, 9, 10, 11, 12, 13, 14, 15])
        19 = 3 := by
  have h := Vec.get_lt a ⟨(imm8 % 16).toNat, by omega⟩
  refine ⟨?_, ?_, ?_, by decide, by decide⟩ <;>
    · simp only [_mm_extract_epi8, toSigned] at *
      norm_num at *
      split_ifs <;> omega

/- ### Immediate Specializer -/

/-- The low `k` bits of a caller-supplied immediate: the embedding of
`imm AND (2 ^ k - 1)` on a two's-complement integer. -/
def maskImm (k : Nat) (imm : Int) : Nat := (imm % (2 : Int) ^ k).toNat

/-- Modelled from the spec: the `constify_imm2`/`constify_imm3`/`constify_imm4`/
`constify_imm8` dispatch macros live in `macros.rs`, which is not under `src/`.
Per the spec, the dispatch is an ordered chain of `2 ^ k` branches, branch `i`
comparing the masked runtime value against the literal `i` and, on a match,
invoking the binding with that literal; there is no default branch, so the
chain is embedded as a first-match fold producing an `Option`. -/
def constifyDispatch {α : Type} (k : Nat) (f : Nat → α) (imm : Int) : Option α :=
  (List.range (2 ^ k)).foldr
    (fun i acc => if maskImm k imm = i then some (f i) else acc) none

/-- Resolve the dispatch to a value; the coverage theorem shows the `none`
fallback is never taken. -/
def constify {α : Type} (k : Nat) (f : Nat → α) (imm : Int) : α :=
  (constifyDispatch k f imm).getD (f 0)

lemma chain_foldr {α : Type} (f : Nat → α) (m : Nat) (init : Option α) (n : Nat) :
    (List.range n).foldr (fun i acc => if m = i then some (f i) else acc) init
      = if m < n then some (f m) else init := by
  induction n generalizing init with
  | zero => simp
  | succ n ih =>
    rw [List.range_succ, List.foldr_append]
    simp only [List.foldr]
    rw [ih]
    rcases Nat.lt_trichotomy m n with h | h | h
    · simp [h, Nat.lt_succ_of_lt h]
    · subst h; simp
    · have h1 : ¬ m < n := by omega
      have h2 : ¬ m = n := by omega
      have h3 : ¬ m < n + 1 := by omega
      simp [h1, h2, h3]

lemma maskImm_lt (k : Nat) (imm : Int) : maskImm k imm < 2 ^ k := by
  have h1 : 0 < (2 : Int) ^ k := by positivity
  have h2 := Int.emod_nonneg imm (ne_of_gt h1)
  have h3 := Int.emod_lt_of_pos imm h1
  have h4 : ((2 : Int) ^ k) = ((2 ^ k : Nat) : Int) := by push_cast; ring
  simp only [maskImm]
  omega

lemma constifyDispatch_eq {α : Type} (k : Nat) (f : Nat → α) (imm : Int) :
    constifyDispatch k f imm = some (f (maskImm k imm)) := by
  rw [constifyDispatch, chain_foldr, if_pos (maskImm_lt k imm)]

lemma constify_eq {α : Type} (k : Nat) (f : Nat → α) (imm : Int) :
    constify k f imm = f (maskImm k imm) := by
  rw [constify, constifyDispatch_eq, Option.getD_some]

lemma maskImm_add_mul (k : Nat) (v m : Int) :
    maskImm k (v + (2 : Int) ^ k * m) = maskImm k v := by
  simp only [maskImm, Int.add_mul_emod_self_left]

/- ### Hardware primitives used by the specialized bindings -/

/-- Modelled from the spec: the hardware primitive `pblendw` (declared
`extern` in `sse41.rs`, body outside `src/`): per the binding's documentation,
a clear mask bit selects the corresponding 16-bit lane of `a`, a set bit the
lane of `b`; bit `i` of the immediate is `imm8 / 2 ^ i % 2`. -/
def pblendw (a b : i16x8) (imm8 : Nat) : i16x8 :=
  ⟨fun i => if imm8 / 2 ^ i.val % 2 = 1 then b.get i else a.get i⟩

/-- Modelled from the spec: the hardware primitive `blendpd` (extern): per-lane
select between the two 64-bit lanes of `a` and `b` keyed by the two mask bits. -/
def blendpd (a b : f64x2) (imm2 : Nat) : f64x2 :=
  ⟨fun i => if imm2 / 2 ^ i.val % 2 = 1 then b.get i else a.get i⟩

/-- Absolute difference of two naturals. -/
def absDiff (x y : Nat) : Nat := max x y - min x y

/-- Modelled from the spec: the hardware primitive `mpsadbw` (extern), per the
documented algorithm: with `i = imm8[2] * 4` and `j = imm8[1:0] * 4`, output
lane `k` is the sum of the four absolute byte differences between the window
`a[i+k .. i+k+3]` and `b[j .. j+3]`. -/
def mpsadbw (a b : u8x16) (imm8 : Nat) : u16x8 :=
  ⟨fun k =>
    absDiff (a.get ⟨imm8 / 4 % 2 * 4 + k.val, by omega⟩)
        (b.get ⟨imm8 % 4 * 4, by omega⟩) +
      absDiff (a.get ⟨imm8 / 4 % 2 * 4 + k.val + 1, by omega⟩)
        (b.get ⟨imm8 % 4 * 4 + 1, by omega⟩) +
      absDiff (a.get ⟨imm8 / 4 % 2 * 4 + k.val + 2, by omega⟩)
        (b.get ⟨imm8 % 4 * 4 + 2, by omega⟩) +
      absDiff (a.get ⟨imm8 / 4 % 2 * 4 + k.val + 3, by omega⟩)
        (b.get ⟨imm8 % 4 * 4 + 3, by omega⟩)⟩

/-- Modelled from the spec: the hardware primitive `roundpd` (extern) rounds
each 64-bit lane of `a` to an integral value under the rounding directive.
The per-lane IEEE rounding computation is not specified bit-level by the spec;
it is taken as the parameter `rnd` (directive and lane bits to lane bits). -/
def roundpd (rnd : Nat → Nat → Nat) (a : f64x2) (imm : Nat) : f64x2 :=
  ⟨fun i => rnd imm (a.get i)⟩

/- ### Specialized wrappers (sse41.rs) -/

/-- Blend 16-bit lanes of `a` and `b` by the immediate mask: the source
resolves the runtime `imm8` through `constify_imm8!` into `pblendw`. -/
def _mm_blend_epi16 (a b : i16x8) (imm8 : Int) : i16x8 :=
  constify 8 (fun i => pblendw a b i) imm8

/-- Blend 64-bit float lanes of `a` and `b` by the 2-bit immediate: the source
resolves the runtime `imm2` through `constify_imm2!` into `blendpd`. -/
def _mm_blend_pd (a b : f64x2) (imm2 : Int) : f64x2 :=
  constify 2 (fun i => blendpd a b i) imm2

/-- Sums of absolute differences over sliding 4-byte windows: the source
resolves the runtime `imm8` through `constify_imm3!` into `mpsadbw`. -/
def _mm_mpsadbw_epu8 (a b : u8x16) (imm8 : Int) : u16x8 :=
  constify 3 (fun i => mpsadbw a b i) imm8

/-- Round the 64-bit float lanes of `a` under the runtime `rounding`
directive: the source resolves it through `constify_imm4!` into `roundpd`. -/
def _mm_round_pd (rnd : Nat → Nat → Nat) (a : f64x2) (rounding : Int) : f64x2 :=
  constify 4 (fun i => roundpd rnd a i) rounding

/- ### Claim C1 -/

/-- Claim C1: the Immediate Specializer's dispatch covers every one of the
`2 ^ k` masked immediate values with an explicit branch and no default or
unreachable case (the ordered branch chain always resolves to `some`, namely
the branch holding the masked literal), and each specialized wrapper returns
exactly the hardware primitive applied to the literal `v AND (2 ^ k - 1)`:
`_mm_blend_epi16` with `pblendw` at `v AND 255`, `_mm_blend_pd` with `blendpd`
at `v AND 3`, and `_mm_mpsadbw_epu8` with `mpsadbw` at `v AND 7`. -/
theorem immediate_specializer_exhaustive :
    (∀ {α : Type} (k : Nat) (f : Nat → α) (imm : Int),
      constifyDispatch k f imm = some (f (maskImm k imm)))
    ∧ (∀ (a b : i16x8) (v : Int), _mm_blend_epi16 a b v = pblendw a b (maskImm 8 v))
    ∧ (∀ (a b : f64x2) (v : Int), _mm_blend_pd a b v = blendpd a b (maskImm 2 v))
    ∧ (∀ (a b : u8x16) (v : Int), _mm_mpsadbw_epu8 a b v = mpsadbw a b (maskImm 3 v)) := by
  refine ⟨fun k f imm => constifyDispatch_eq k f imm, ?_, ?_, ?_⟩
  · exact fun a b v => constify_eq 8 (fun i => pblendw a b i) v
  · exact fun a b v => constify_eq 2 (fun i => blendpd a b i) v
  · exact fun a b v => constify_eq 3 (fun i => mpsadbw a b i) v

/- ### Claim C2 -/

/-- Claim C2: masking idempotence: an immediate `v` and `v + 2 ^ k * m` give
identical results, the low `k` bits alone determining the outcome; concretely
for `_mm_extract_epi8` (k = 4, index masked by AND 15) and for `_mm_round_pd`
(k = 4, directive resolved through the 16-way dispatch). -/
theorem immediate_masking_idempotent (a : i8x16) (p : f64x2)
    (rnd : Nat → Nat → Nat) (v m : Int) :
    _mm_extract_epi8 a v = _mm_extract_epi8 a (v + 16 * m)
    ∧ _mm_round_pd rnd p v = _mm_round_pd rnd p (v + 16 * m) := by
  constructor
  · have hx : (v + 16 * m) % 16 = v % 16 := by omega
    simp only [_mm_extract_epi8, hx]
  · have hk : maskImm 4 (v + 16 * m) = maskImm 4 v := by
      have h := maskImm_add_mul 4 v m
      norm_num at h
      exact h.symm ▸ rfl
    rw [_mm_round_pd, _mm_round_pd, constify_eq, constify_eq, hk]

/- ### Claim C9 -/

/-- Modelled from the spec: the hardware primitive `pminsb` (extern): per-lane
minimum of the signed 8-bit lane values. -/
def pminsb (a b : i8x16) : i8x16 :=
  ⟨fun i => if toSigned 8 (a.get i) ≤ toSigned 8 (b.get i) then a.get i else b.get i⟩

/-- Per-lane signed 8-bit minimum; the source forwards to `pminsb`. -/
def _mm_min_epi8 (a b : i8x16) : i8x16 := pminsb a b

lemma toSigned_mod_self (w x : Nat) : toSigned w (x % 2 ^ w) = toSigned w x := by
  simp [toSigned, Nat.mod_mod_of_dvd]

/-- Claim C9: `_mm_min_epi8` computes the lane-wise signed 8-bit minimum, and
on the documented test vectors it returns the expected 16 lanes. -/
theorem min_epi8_signed_minimum (a b : i8x16) (i : Fin 16) :
    toSigned 8 ((_mm_min_epi8 a b).get i)
      = min (toSigned 8 (a.get i)) (toSigned 8 (b.get i))
    ∧ (∀ j : Fin 16,
        (_mm_min_epi8
          (Vec.ofInts 16 8
            [1, -4, -5, 8, -9, -12, 13, -16, 17, 20, 21, 24, 25, 28, 29, 32])
          (Vec.ofInts 16 8
            [2, -3, -6, 7, -10, -11, 14, -15, 18, 19, 22, 23, 26, 27, 30, 31])).get j
        = (Vec.ofInts 16 8
            [1, -4, -6, 7, -10, -12, 13, -16, 17, 19, 21, 23, 25, 27, 29, 31]).get j) := by
  constructor
  · rcases le_or_lt (toSigned 8 (a.get i)) (toSigned 8 (b.get i)) with h | h
    · rw [min_eq_left h]
      simp only [_mm_min_epi8, pminsb, Vec.get] at h ⊢
      rw [if_pos h, toSigned_mod_self]
    · have h2 := not_le_of_lt h
      rw [min_eq_right (le_of_lt h)]
      simp only [_mm_min_epi8, pminsb, Vec.get] at h2 ⊢
      rw [if_neg h2, toSigned_mod_self]
  · decide

/- ### Claim C6 -/

/-- Clamp a signed value into the unsigned 16-bit range [0, 65535]. -/
def clamp16 (x : Int) : Nat := (min (max x 0) 65535).toNat

/-- Modelled from the spec: the hardware primitive `packusdw` (extern): packs
the four signed 32-bit lanes of `a` and then of `b` into eight unsigned 16-bit
lanes, clamping each value into [0, 65535] (saturation, not wrapping). -/
def packusdw (a b : i32x4) : u16x8 :=
  ⟨fun j => if h : j.val < 4 then clamp16 (toSigned 32 (a.get ⟨j.val, h⟩))
    else clamp16 (toSigned 32 (b.get ⟨j.val - 4, by omega⟩))⟩

/-- Pack with unsigned saturation; the source forwards to `packusdw`. -/
def _mm_packus_epi32 (a b : i32x4) : u16x8 := packusdw a b

lemma clamp16_lt (x : Int) : clamp16 x < 65536 := by
  simp only [clamp16]
  omega

/-- Claim C6: `_mm_packus_epi32` places `a`'s lane `j` clamped into
[0, 65535] at output lane `j` and `b`'s lane `j` clamped at output lane
`j + 4`, and on inputs [1,2,3,4] and [-1,-2,-3,-4] yields [1,2,3,4,0,0,0,0]. -/
theorem packus_epi32_saturates (a b : i32x4) (j : Fin 4) :
    (_mm_packus_epi32 a b).get ⟨j.val, by omega⟩
      = clamp16 (toSigned 32 (a.get j))
    ∧ (_mm_packus_epi32 a b).get ⟨j.val + 4, by omega⟩
      = clamp16 (toSigned 32 (b.get j))
    ∧ (∀ i : Fin 8,
        (_mm_packus_epi32 (Vec.ofInts 4 32 [1, 2, 3, 4])
          (Vec.ofInts 4 32 [-1, -2, -3, -4])).get i
        = (Vec.ofList 8 16 [1, 2, 3, 4, 0, 0, 0, 0]).get i) := by
  refine ⟨?_, ?_, by decide⟩
  · simp only [_mm_packus_epi32, packusdw, Vec.get]
    rw [dif_pos j.isLt]
    simp only [Fin.eta]
    rw [← Vec.get, Nat.mod_eq_of_lt (lt_of_lt_of_le (clamp16_lt _) (by norm_num))]
  · simp only [_mm_packus_epi32, packusdw, Vec.get]
    have h4 : ¬ j.val + 4 < 4 := by omega
    rw [dif_neg h4]
    have h5 : j.val + 4 - 4 = j.val := by omega
    simp only [h5, Fin.eta]
    rw [← Vec.get, Nat.mod_eq_of_lt (lt_of_lt_of_le (clamp16_lt _) (by norm_num))]

/- ### Claim C4: widening conversions -/

/-- Sign-extend a `w`-bit pattern to a `W`-bit pattern: the two's-complement
pattern of the signed value. -/
def signExtend (w W x : Nat) : Nat := ((toSigned w x) % (2 : Int) ^ W).toNat

/-- Sign extend the first 8 of the 16 byte lanes of `a` to 16-bit lanes; the
source shuffles lanes `[0..7]` of `a` and casts (`simd_shuffle8` then
`as_i16x8`, both outside `src/`). -/
def _mm_cvtepi8_epi16 (a : i8x16) : i16x8 :=
  ⟨fun j => signExtend 8 16 (a.get ⟨j.val, by omega⟩)⟩

/-- Sign extend the first 4 byte lanes of `a` to 32-bit lanes. -/
def _mm_cvtepi8_epi32 (a : i8x16) : i32x4 :=
  ⟨fun j => signExtend 8 32 (a.get ⟨j.val, by omega⟩)⟩

/-- Sign extend the first 2 byte lanes of `a` to 64-bit lanes. -/
def _mm_cvtepi8_epi64 (a : i8x16) : i64x2 :=
  ⟨fun j => signExtend 8 64 (a.get ⟨j.val, by omega⟩)⟩

/-- Sign extend the first 4 of the 8 16-bit lanes of `a` to 32-bit lanes. -/
def _mm_cvtepi16_epi32 (a : i16x8) : i32x4 :=
  ⟨fun j => signExtend 16 32 (a.get ⟨j.val, by omega⟩)⟩

/-- Sign extend the first 2 16-bit lanes of `a` to 64-bit lanes. -/
def _mm_cvtepi16_epi64 (a : i16x8) : i64x2 :=
  ⟨fun j => signExtend 16 64 (a.get ⟨j.val, by omega⟩)⟩

/-- Sign extend the first 2 of the 4 32-bit lanes of `a` to 64-bit lanes. -/
def _mm_cvtepi32_epi64 (a : i32x4) : i64x2 :=
  ⟨fun j => signExtend 32 64 (a.get ⟨j.val, by omega⟩)⟩

/-- Zero extend the first 8 byte lanes of `a` to 16-bit lanes: the unsigned
bit pattern carries over unchanged. -/
def _mm_cvtepu8_epi16 (a : u8x16) : i16x8 :=
  ⟨fun j => a.get ⟨j.val, by omega⟩⟩

/-- Zero extend the first 4 byte lanes of `a` to 32-bit lanes. -/
def _mm_cvtepu8_epi32 (a : u8x16) : i32x4 :=
  ⟨fun j => a.get ⟨j.val, by omega⟩⟩

/-- Zero extend the first 2 byte lanes of `a` to 64-bit lanes. -/
def _mm_cvtepu8_epi64 (a : u8x16) : i64x2 :=
  ⟨fun j => a.get ⟨j.val, by omega⟩⟩

/-- Zero extend the first 4 16-bit lanes of `a` to 32-bit lanes. -/
def _mm_cvtepu16_epi32 (a : u16x8) : i32x4 :=
  ⟨fun j => a.get ⟨j.val, by omega⟩⟩

/-- Zero extend the first 2 16-bit lanes of `a` to 64-bit lanes. -/
def _mm_cvtepu16_epi64 (a : u16x8) : i64x2 :=
  ⟨fun j => a.get ⟨j.val, by omega⟩⟩

/-- Zero extend the first 2 32-bit lanes of `a` to 64-bit lanes. -/
def _mm_cvtepu32_epi64 (a : u32x4) : i64x2 :=
  ⟨fun j => a.get ⟨j.val, by omega⟩⟩

lemma sExt_8_16 (y : Nat) :
    toSigned 16 (signExtend 8 16 y % 2 ^ 16) = toSigned 8 y := by
  simp only [signExtend, toSigned]
  norm_num
  split_ifs <;> omega

lemma sExt_8_32 (y : Nat) :
    toSigned 32 (signExtend 8 32 y % 2 ^ 32) = toSigned 8 y := by
  simp only [signExtend, toSigned]
  norm_num
  split_ifs <;> omega

lemma sExt_8_64 (y : Nat) :
    toSigned 64 (signExtend 8 64 y % 2 ^ 64) = toSigned 8 y := by
  simp only [signExtend, toSigned]
  norm_num
  split_ifs <;> omega

lemma sExt_16_32 (y : Nat) :
    toSigned 32 (signExtend 16 32 y % 2 ^ 32) = toSigned 16 y := by
  simp only [signExtend, toSigned]
  norm_num
  split_ifs <;> omega

lemma sExt_16_64 (y : Nat) :
    toSigned 64 (signExtend 16 64 y % 2 ^ 64) = toSigned 16 y := by
  simp only [signExtend, toSigned]
  norm_num
  split_ifs <;> omega

lemma sExt_32_64 (y : Nat) :
    toSigned 64 (signExtend 32 64 y % 2 ^ 64) = toSigned 32 y := by
  simp only [signExtend, toSigned]
  norm_num
  split_ifs <;> omega

lemma zExt_get {n w n2 w2 : Nat} (a : Vec n w) (i : Fin n) (i2 : Fin n2)
    (hw : 2 ^ w ≤ 2 ^ w2) (b : Vec n2 w2) (hb : b.lanes i2 = a.get i) :
    b.get i2 = a.get i := by
  rw [Vec.get, hb, Nat.mod_eq_of_lt (lt_of_lt_of_le (Vec.get_lt a i) hw)]

/-- Claim C4: each widening conversion consumes exactly the documented prefix
of input lanes: the signed conversions write, at output lane `j`, the
sign-extension of input lane `j` (same signed value), the unsigned ones the
zero-extension (same bit pattern); each conversion's result is unchanged by
arbitrary changes to the lanes beyond the consumed prefix; and zero-extending
a `u8x16` of all 10s with `_mm_cvtepu8_epi32` yields four lanes equal to 10. -/
theorem widen_prefix_contract :
    (∀ (a : i8x16) (j : Fin 8),
      toSigned 16 ((_mm_cvtepi8_epi16 a).get j) = toSigned 8 (a.get ⟨j.val, by omega⟩))
    ∧ (∀ (a : i8x16) (j : Fin 4),
      toSigned 32 ((_mm_cvtepi8_epi32 a).get j) = toSigned 8 (a.get ⟨j.val, by omega⟩))
    ∧ (∀ (a : i8x16) (j : Fin 2),
      toSigned 64 ((_mm_cvtepi8_epi64 a).get j) = toSigned 8 (a.get ⟨j.val, by omega⟩))
    ∧ (∀ (a : i16x8) (j : Fin 4),
      toSigned 32 ((_mm_cvtepi16_epi32 a).get j) = toSigned 16 (a.get ⟨j.val, by omega⟩))
    ∧ (∀ (a : i16x8) (j : Fin 2),
      toSigned 64 ((_mm_cvtepi16_epi64 a).get j) = toSigned 16 (a.get ⟨j.val, by omega⟩))
    ∧ (∀ (a : i32x4) (j : Fin 2),
      toSigned 64 ((_mm_cvtepi32_epi64 a).get j) = toSigned 32 (a.get ⟨j.val, by omega⟩))
    ∧ (∀ (a : u8x16) (j : Fin 8), (_mm_cvtepu8_epi16 a).get j = a.get ⟨j.val, by omega⟩)
    ∧ (∀ (a : u8x16) (j : Fin 4), (_mm_cvtepu8_epi32 a).get j = a.get ⟨j.val, by omega⟩)
    ∧ (∀ (a : u8x16) (j : Fin 2), (_mm_cvtepu8_epi64 a).get j = a.get ⟨j.val, by omega⟩)
    ∧ (∀ (a : u16x8) (j : Fin 4), (_mm_cvtepu16_epi32 a).get j = a.get ⟨j.val, by omega⟩)
    ∧ (∀ (a : u16x8) (j : Fin 2), (_mm_cvtepu16_epi64 a).get j = a.get ⟨j.val, by omega⟩)
    ∧ (∀ (a : u32x4) (j : Fin 2), (_mm_cvtepu32_epi64 a).get j = a.get ⟨j.val, by omega⟩)
    ∧ (∀ (a a2 : i8x16), (∀ i : Fin 16, i.val < 8 → a.lanes i = a2.lanes i) →
        ∀ j : Fin 8, (_mm_cvtepi8_epi16 a).get j = (_mm_cvtepi8_epi16 a2).get j)
    ∧ (∀ (a a2 : i8x16), (∀ i : Fin 16, i.val < 4 → a.lanes i = a2.lanes i) →
        ∀ j : Fin 4, (_mm_cvtepi8_epi32 a).get j = (_mm_cvtepi8_epi32 a2).get j)
    ∧ (∀ (a a2 : i8x16), (∀ i : Fin 16, i.val < 2 → a.lanes i = a2.lanes i) →
        ∀ j : Fin 2, (_mm_cvtepi8_epi64 a).get j = (_mm_cvtepi8_epi64 a2).get j)
    ∧ (∀ (a a2 : i16x8), (∀ i : Fin 8, i.val < 4 → a.lanes i = a2.lanes i) →
        ∀ j : Fin 4, (_mm_cvtepi16_epi32 a).get j = (_mm_cvtepi16_epi32 a2).get j)
    ∧ (∀ (a a2 : i16x8), (∀ i : Fin 8, i.val < 2 → a.lanes i = a2.lanes i) →
        ∀ j : Fin 2, (_mm_cvtepi16_epi64 a).get j = (_mm_cvtepi16_epi64 a2).get j)
    ∧ (∀ (a a2 : i32x4), (∀ i : Fin 4, i.val < 2 → a.lanes i = a2.lanes i) →
        ∀ j : Fin 2, (_mm_cvtepi32_epi64 a).get j = (_mm_cvtepi32_epi64 a2).get j)
    ∧ (∀ (a a2 : u8x16), (∀ i : Fin 16, i.val < 8 → a.lanes i = a2.lanes i) →
        ∀ j : Fin 8, (_mm_cvtepu8_epi16 a).get j = (_mm_cvtepu8_epi16 a2).get j)
    ∧ (∀ (a a2 : u8x16), (∀ i : Fin 16, i.val < 4 → a.lanes i = a2.lanes i) →
        ∀ j : Fin 4, (_mm_cvtepu8_epi32 a).get j = (_mm_cvtepu8_epi32 a2).get j)
    ∧ (∀ (a a2 : u8x16), (∀ i : Fin 16, i.val < 2 → a.lanes i = a2.lanes i) →
        ∀ j : Fin 2, (_mm_cvtepu8_epi64 a).get j = (_mm_cvtepu8_epi64 a2).get j)
    ∧ (∀ (a a2 : u16x8), (∀ i : Fin 8, i.val < 4 → a.lanes i = a2.lanes i) →
        ∀ j : Fin 4, (_mm_cvtepu16_epi32 a).get j = (_mm_cvtepu16_epi32 a2).get j)
    ∧ (∀ (a a2 : u16x8), (∀ i : Fin 8, i.val < 2 → a.lanes i = a2.lanes i) →
        ∀ j : Fin 2, (_mm_cvtepu16_epi64 a).get j = (_mm_cvtepu16_epi64 a2).get j)
    ∧ (∀ (a a2 : u32x4), (∀ i : Fin 4, i.val < 2 → a.lanes i = a2.lanes i) →
        ∀ j : Fin 2, (_mm_cvtepu32_epi64 a).get j = (_mm_cvtepu32_epi64 a2).get j)
    ∧ (∀ j : Fin 4,
        (_mm_cvtepu8_epi32 (Vec.ofList 16 8 (List.replicate 16 10))).get j = 10) := by
  refine ⟨?_, ?_, ?_, ?_, ?_, ?_, ?_, ?_, ?_, ?_, ?_, ?_,
    ?_, ?_, ?_, ?_, ?_, ?_, ?_, ?_, ?_, ?_, ?_, ?_, by decide⟩
  · exact fun a j => sExt_8_16 (a.get ⟨j.val, by omega⟩)
  · exact fun a j => sExt_8_32 (a.get ⟨j.val, by omega⟩)
  · exact fun a j => sExt_8_64 (a.get ⟨j.val, by omega⟩)
  · exact fun a j => sExt_16_32 (a.get ⟨j.val, by omega⟩)
  · exact fun a j => sExt_16_64 (a.get ⟨j.val, by omega⟩)
  · exact fun a j => sExt_32_64 (a.get ⟨j.val, by omega⟩)
  · exact fun a j => zExt_get a ⟨j.val, by omega⟩ j (by norm_num) _ rfl
  · exact fun a j => zExt_get a ⟨j.val, by omega⟩ j (by norm_num) _ rfl
  · exact fun a j => zExt_get a ⟨j.val, by omega⟩ j (by norm_num) _ rfl
  · exact fun a j => zExt_get a ⟨j.val, by omega⟩ j (by norm_num) _ rfl
  · exact fun a j => zExt_get a ⟨j.val, by omega⟩ j (by norm_num) _ rfl
  · exact fun a j => zExt_get a ⟨j.val, by omega⟩ j (by norm_num) _ rfl
  all_goals
    intro a a2 h j
    simp only [_mm_cvtepi8_epi16, _mm_cvtepi8_epi32, _mm_cvtepi8_epi64,
      _mm_cvtepi16_epi32, _mm_cvtepi16_epi64, _mm_cvtepi32_epi64,
      _mm_cvtepu8_epi16, _mm_cvtepu8_epi32, _mm_cvtepu8_epi64,
      _mm_cvtepu16_epi32, _mm_cvtepu16_epi64, _mm_cvtepu32_epi64, Vec.get]
    rw [h ⟨j.val, by omega⟩ j.isLt]

/-- Claim C4 witness: changing the 12 lanes beyond the consumed 4-lane prefix
does not change `_mm_cvtepu8_epi32`. -/
theorem widen_prefix_contract_witness :
    (_mm_cvtepu8_epi32 (Vec.ofList 16 8
      [1, 2, 3, 4, 5, 6, 7, 8, 9, 10, 11, 12, 13, 14, 15, 16])).get 0
    = (_mm_cvtepu8_epi32 (Vec.ofList 16 8
      [1, 2, 3, 4, 99, 99, 99, 99, 0, 0, 0, 0, 0, 0, 0, 0])).get 0 := by
  have h := widen_prefix_contract
  exact h.2.2.2.2.2.2.2.2.2.2.2.2.2.2.2.2.2.2.2.1 _ _ (by decide) 0

/- ### Claim C5: horizontal minimum and its index -/

/-- Scan of the documented `phminposuw` loop: after step `k` the pair holds
the minimum of lanes `0..k` and the lowest index attaining it (a strictly
smaller value is required to displace the current minimum, so ties keep the
earlier index). -/
def minposAux (a : u16x8) : Nat → Nat × Nat
  | 0 => (a.get 0, 0)
  | k + 1 =>
    if h : k + 1 < 8 then
      if a.get ⟨k + 1, h⟩ < (minposAux a k).1 then (a.get ⟨k + 1, h⟩, k + 1)
      else minposAux a k
    else minposAux a k

/-- Modelled from the spec: the hardware primitive `phminposuw` (extern):
lane 0 of the result holds the minimum unsigned 16-bit lane of `a`, lane 1 the
lowest index attaining it, and lanes 2..7 are zero. -/
def phminposuw (a : u16x8) : u16x8 :=
  ⟨fun i => if i.val = 0 then (minposAux a 7).1
    else if i.val = 1 then (minposAux a 7).2 else 0⟩

/-- Horizontal minimum with index; the source forwards to `phminposuw`. -/
def _mm_minpos_epu16 (a : u16x8) : u16x8 := phminposuw a

lemma minposAux_succ (a : u16x8) (k : Nat) (hk : k + 1 < 8) :
    minposAux a (k + 1)
      = if a.get ⟨k + 1, hk⟩ < (minposAux a k).1
        then (a.get ⟨k + 1, hk⟩, k + 1) else minposAux a k := by
  simp only [minposAux, dif_pos hk]

lemma minposAux_le (a : u16x8) (k : Nat) (hk : k < 8) :
    ∀ i : Fin 8, i.val ≤ k → (minposAux a k).1 ≤ a.get i := by
  induction k with
  | zero =>
    intro i hi
    have h0 : i = (0 : Fin 8) := Fin.ext (show i.val = 0 by omega)
    rw [h0]
    exact le_of_eq rfl
  | succ k ih =>
    intro i hi
    rw [minposAux_succ a k hk]
    by_cases hc : a.get ⟨k + 1, hk⟩ < (minposAux a k).1
    · rw [if_pos hc]
      show a.get ⟨k + 1, hk⟩ ≤ a.get i
      rcases Nat.lt_or_ge i.val (k + 1) with hik | hik
      · exact le_trans (le_of_lt hc) (ih (by omega) i (by omega))
      · have h0 : i = ⟨k + 1, hk⟩ := Fin.ext (show i.val = k + 1 by omega)
        rw [h0]
    · rw [if_neg hc]
      rcases Nat.lt_or_ge i.val (k + 1) with hik | hik
      · exact ih (by omega) i (by omega)
      · have h0 : i = ⟨k + 1, hk⟩ := Fin.ext (show i.val = k + 1 by omega)
        rw [h0]
        exact le_of_not_lt hc

lemma minposAux_mem (a : u16x8) (k : Nat) (hk : k < 8) :
    ∃ j : Fin 8, j.val = (minposAux a k).2 ∧ a.get j = (minposAux a k).1
      ∧ j.val ≤ k := by
  induction k with
  | zero => exact ⟨(0 : Fin 8), rfl, rfl, le_rfl⟩
  | succ k ih =>
    obtain ⟨j, hj1, hj2, hj3⟩ := ih (by omega)
    rw [minposAux_succ a k hk]
    by_cases hc : a.get ⟨k + 1, hk⟩ < (minposAux a k).1
    · rw [if_pos hc]
      exact ⟨⟨k + 1, hk⟩, rfl, rfl, le_rfl⟩
    · rw [if_neg hc]
      exact ⟨j, hj1, hj2, le_trans hj3 (by omega)⟩

lemma minposAux_least (a : u16x8) (k : Nat) (hk : k < 8) :
    ∀ i : Fin 8, i.val ≤ k → a.get i = (minposAux a k).1
      → (minposAux a k).2 ≤ i.val := by
  induction k with
  | zero => exact fun i _ _ => Nat.zero_le _
  | succ k ih =>
    intro i hi hmin
    rw [minposAux_succ a k hk] at hmin ⊢
    by_cases hc : a.get ⟨k + 1, hk⟩ < (minposAux a k).1
    · rw [if_pos hc] at hmin ⊢
      show k + 1 ≤ i.val
      rcases Nat.lt_or_ge i.val (k + 1) with hik | hik
      · have hlk := minposAux_le a k (by omega) i (by omega)
        have hm2 : a.get i = a.get ⟨k + 1, hk⟩ := hmin
        omega
      · exact hik
    · rw [if_neg hc] at hmin ⊢
      rcases Nat.lt_or_ge i.val (k + 1) with hik | hik
      · exact ih (by omega) i (by omega) hmin
      · obtain ⟨j, hj1, _, hj3⟩ := minposAux_mem a k (by omega)
        omega

lemma minposAux_fst_lt (a : u16x8) (k : Nat) (hk : k < 8) :
    (minposAux a k).1 < 2 ^ 16 := by
  obtain ⟨j, _, hj2, _⟩ := minposAux_mem a k hk
  rw [← hj2]
  exact Vec.get_lt a j

lemma minpos_get0 (a : u16x8) : (_mm_minpos_epu16 a).get 0 = (minposAux a 7).1 := by
  simp only [_mm_minpos_epu16, phminposuw, Vec.get]
  rw [if_pos (by decide)]
  exact Nat.mod_eq_of_lt (minposAux_fst_lt a 7 (by omega))

lemma minpos_get1 (a : u16x8) : (_mm_minpos_epu16 a).get 1 = (minposAux a 7).2 := by
  simp only [_mm_minpos_epu16, phminposuw, Vec.get]
  rw [if_neg (by decide), if_pos (by decide)]
  obtain ⟨j, hj1, _, hj3⟩ := minposAux_mem a 7 (by omega)
  exact Nat.mod_eq_of_lt
    (lt_of_le_of_lt (show (minposAux a 7).2 ≤ 7 by omega) (by norm_num))

/-- Claim C5: `_mm_minpos_epu16` returns the minimum of the 8 unsigned 16-bit
lanes at lane 0, the lowest index attaining that minimum at lane 1 (ties
broken by lowest index), zeros at lanes 2..7; and on input
[23,18,44,97,50,13,67,66] it returns [13,5,0,0,0,0,0,0]. -/
theorem minpos_epu16_spec (a : u16x8) :
    (∀ i : Fin 8, (_mm_minpos_epu16 a).get 0 ≤ a.get i)
    ∧ (∃ j : Fin 8, j.val = (_mm_minpos_epu16 a).get 1
        ∧ a.get j = (_mm_minpos_epu16 a).get 0)
    ∧ (∀ i : Fin 8, a.get i = (_mm_minpos_epu16 a).get 0
        → (_mm_minpos_epu16 a).get 1 ≤ i.val)
    ∧ (∀ i : Fin 8, 2 ≤ i.val → (_mm_minpos_epu16 a).get i = 0)
    ∧ (∀ i : Fin 8,
        (_mm_minpos_epu16 (Vec.ofList 8 16 [23, 18, 44, 97, 50, 13, 67, 66])).get i
        = (Vec.ofList 8 16 [13, 5, 0, 0, 0, 0, 0, 0]).get i) := by
  refine ⟨?_, ?_, ?_, ?_, by decide⟩
  · intro i
    rw [minpos_get0]
    exact minposAux_le a 7 (by omega) i (by omega)
  · obtain ⟨j, hj1, hj2, _⟩ := minposAux_mem a 7 (by omega)
    exact ⟨j, by rw [minpos_get1, hj1], by rw [minpos_get0, hj2]⟩
  · intro i hmin
    rw [minpos_get0] at hmin
    rw [minpos_get1]
    exact minposAux_least a 7 (by omega) i (by omega) hmin
  · intro i hi
    simp only [_mm_minpos_epu16, phminposuw, Vec.get]
    have h0 : ¬ i.val = 0 := by omega
    have h1 : ¬ i.val = 1 := by omega
    rw [if_neg h0, if_neg h1]
    exact Nat.zero_mod _

/-- Claim C5 witness: on [8,7,6,5,4,1,2,3] the reported index is at most 5,
by the lowest-index property at the minimum value 1 found at lane 5. -/
theorem minpos_epu16_spec_witness :
    (_mm_minpos_epu16 (Vec.ofList 8 16 [8, 7, 6, 5, 4, 1, 2, 3])).get 1 ≤ 5 :=
  (minpos_epu16_spec (Vec.ofList 8 16 [8, 7, 6, 5, 4, 1, 2, 3])).2.2.1
    ⟨5, by omega⟩ (by decide)

/- ### Claim C7: scalar rounding keeps the upper lanes of `a` -/

/-- Modelled from the spec: the hardware primitive `roundsd` (extern): the
lower 64-bit lane of the result is the directive-controlled rounding of
lane 0 of `b`, the upper lane is copied from `a`; the lane-0 IEEE rounding
computation is not specified bit-level by the spec and is the parameter
`rnd` (directive and lane bits to lane bits). -/
def roundsd (rnd : Int → Nat → Nat) (a b : f64x2) (rounding : Int) : f64x2 :=
  ⟨fun i => if i.val = 0 then rnd rounding (b.get 0) else a.get i⟩

/-- Modelled from the spec: the hardware primitive `roundss` (extern): lane 0
of the result is the directive-controlled rounding of lane 0 of `b`, lanes
1..3 are copied from `a`. -/
def roundss (rnd : Int → Nat → Nat) (a b : f32x4) (rounding : Int) : f32x4 :=
  ⟨fun i => if i.val = 0 then rnd rounding (b.get 0) else a.get i⟩

/-- Round lane 0 of `b` down, upper lane from `a`. -/
def _mm_floor_sd (rnd : Int → Nat → Nat) (a b : f64x2) : f64x2 :=
  roundsd rnd a b _MM_FROUND_FLOOR

/-- Round lane 0 of `b` down, upper 3 lanes from `a`. -/
def _mm_floor_ss (rnd : Int → Nat → Nat) (a b : f32x4) : f32x4 :=
  roundss rnd a b _MM_FROUND_FLOOR

/-- Round lane 0 of `b` up, upper lane from `a`. -/
def _mm_ceil_sd (rnd : Int → Nat → Nat) (a b : f64x2) : f64x2 :=
  roundsd rnd a b _MM_FROUND_CEIL

/-- Round lane 0 of `b` up, upper 3 lanes from `a`. -/
def _mm_ceil_ss (rnd : Int → Nat → Nat) (a b : f32x4) : f32x4 :=
  roundss rnd a b _MM_FROUND_CEIL

/-- Round lane 0 of `b` under the runtime directive (resolved through
`constify_imm4!`), upper lane from `a`. -/
def _mm_round_sd (rnd : Int → Nat → Nat) (a b : f64x2) (rounding : Int) : f64x2 :=
  constify 4 (fun i => roundsd rnd a b (i : Int)) rounding

/-- Round lane 0 of `b` under the runtime directive (resolved through
`constify_imm4!`), upper 3 lanes from `a`. -/
def _mm_round_ss (rnd : Int → Nat → Nat) (a b : f32x4) (rounding : Int) : f32x4 :=
  constify 4 (fun i => roundss rnd a b (i : Int)) rounding

lemma roundss_frame (rnd : Int → Nat → Nat) (a b : f32x4) (rounding : Int)
    (i : Fin 4) (hi : i.val ≠ 0) : (roundss rnd a b rounding).get i = a.get i := by
  simp only [roundss, Vec.get, if_neg hi]
  exact Nat.mod_mod_of_dvd _ dvd_rfl

lemma roundsd_frame (rnd : Int → Nat → Nat) (a b : f64x2) (rounding : Int)
    (i : Fin 2) (hi : i.val ≠ 0) : (roundsd rnd a b rounding).get i = a.get i := by
  simp only [roundsd, Vec.get, if_neg hi]
  exact Nat.mod_mod_of_dvd _ dvd_rfl

lemma roundss_lane0 (rnd : Int → Nat → Nat) (a b : f32x4) (rounding : Int) :
    (roundss rnd a b rounding).get 0 = rnd rounding (b.get 0) % 2 ^ 32 := by
  simp [roundss, Vec.get]

lemma roundsd_lane0 (rnd : Int → Nat → Nat) (a b : f64x2) (rounding : Int) :
    (roundsd rnd a b rounding).get 0 = rnd rounding (b.get 0) % 2 ^ 64 := by
  simp [roundsd, Vec.get]

/-- Claim C7: for the scalar ("lower lane only") rounding bindings, lanes
1..3 (`ss` forms) and lane 1 (`sd` forms) of the result are bit-identical to
those lanes of `a`, for every rounding parameter of `_mm_round_ss` and
`_mm_round_sd`; and lane 0 is computed from lane 0 of `b` under the
directive. -/
theorem scalar_round_upper_lanes_frame (rnd : Int → Nat → Nat)
    (a b : f32x4) (c d : f64x2) (rounding : Int) :
    ((_mm_floor_ss rnd a b).get 1 = a.get 1
      ∧ (_mm_floor_ss rnd a b).get 2 = a.get 2
      ∧ (_mm_floor_ss rnd a b).get 3 = a.get 3
      ∧ (_mm_floor_ss rnd a b).get 0 = rnd _MM_FROUND_FLOOR (b.get 0) % 2 ^ 32)
    ∧ ((_mm_ceil_ss rnd a b).get 1 = a.get 1
      ∧ (_mm_ceil_ss rnd a b).get 2 = a.get 2
      ∧ (_mm_ceil_ss rnd a b).get 3 = a.get 3
      ∧ (_mm_ceil_ss rnd a b).get 0 = rnd _MM_FROUND_CEIL (b.get 0) % 2 ^ 32)
    ∧ ((_mm_round_ss rnd a b rounding).get 1 = a.get 1
      ∧ (_mm_round_ss rnd a b rounding).get 2 = a.get 2
      ∧ (_mm_round_ss rnd a b rounding).get 3 = a.get 3
      ∧ (_mm_round_ss rnd a b rounding).get 0
          = rnd ((maskImm 4 rounding : Nat) : Int) (b.get 0) % 2 ^ 32)
    ∧ ((_mm_floor_sd rnd c d).get 1 = c.get 1
      ∧ (_mm_floor_sd rnd c d).get 0 = rnd _MM_FROUND_FLOOR (d.get 0) % 2 ^ 64)
    ∧ ((_mm_ceil_sd rnd c d).get 1 = c.get 1
      ∧ (_mm_ceil_sd rnd c d).get 0 = rnd _MM_FROUND_CEIL (d.get 0) % 2 ^ 64)
    ∧ ((_mm_round_sd rnd c d rounding).get 1 = c.get 1
      ∧ (_mm_round_sd rnd c d rounding).get 0
          = rnd ((maskImm 4 rounding : Nat) : Int) (d.get 0) % 2 ^ 64) := by
  refine ⟨⟨?_, ?_, ?_, ?_⟩, ⟨?_, ?_, ?_, ?_⟩, ⟨?_, ?_, ?_, ?_⟩,
    ⟨?_, ?_⟩, ⟨?_, ?_⟩, ⟨?_, ?_⟩⟩
  · exact roundss_frame rnd a b _ 1 (by decide)
  · exact roundss_frame rnd a b _ 2 (by decide)
  · exact roundss_frame rnd a b _ 3 (by decide)
  · exact roundss_lane0 rnd a b _
  · exact roundss_frame rnd a b _ 1 (by decide)
  · exact roundss_frame rnd a b _ 2 (by decide)
  · exact roundss_frame rnd a b _ 3 (by decide)
  · exact roundss_lane0 rnd a b _
  · rw [_mm_round_ss, constify_eq]
    exact roundss_frame rnd a b _ 1 (by decide)
  · rw [_mm_round_ss, constify_eq]
    exact roundss_frame rnd a b _ 2 (by decide)
  · rw [_mm_round_ss, constify_eq]
    exact roundss_frame rnd a b _ 3 (by decide)
  · rw [_mm_round_ss, constify_eq]
    exact roundss_lane0 rnd a b _
  · exact roundsd_frame rnd c d _ 1 (by decide)
  · exact roundsd_lane0 rnd c d _
  · exact roundsd_frame rnd c d _ 1 (by decide)
  · exact roundsd_lane0 rnd c d _
  · rw [_mm_round_sd, constify_eq]
    exact roundsd_frame rnd c d _ 1 (by decide)
  · rw [_mm_round_sd, constify_eq]
    exact roundsd_lane0 rnd c d _

end SSE41
